import Mathlib

/-!
Verification development for the `searchpkgs` manifest builder
(`src/main.rs`).  The Rust program derives per-(engine, version, arch, os)
artifact URLs, fetches and hashes artifacts with per-URL memoization and a
bounded-concurrency scheduler, and persists a nested JSON manifest after
every update.  The definitions below are a shallow embedding of that
program: pure functions are translated directly, the async scheduler loop
of `generate_hashes_for_engine` becomes an explicit state machine folded
over the enumerated work items (spawned tasks complete in spawn order and
are joined FIFO; the shared memo future's single evaluation is modelled
eagerly at cell creation), and file/network effects are passed in as
explicit values (`Option Json` for a file, `String → Except Unit String`
for the HTTP transport).
-/

namespace SearchPkgs

/-- `enum Engine` from the source: the three engine distributions, in
declaration order (which is the `Ord`/`EnumIter` order). -/
inductive Engine where
  | elasticsearch
  | opensearch
  | quickwit
deriving DecidableEq, Repr

/-- `enum Arch` from the source, in declaration order. -/
inductive Arch where
  | x86_64
  | aarch64
deriving DecidableEq, Repr

/-- `enum OperatingSystem` from the source, in declaration order. -/
inductive OperatingSystem where
  | linux
  | darwin
deriving DecidableEq, Repr

/-- `semver::Version` as the program uses it: `major.minor.patch` plus an
optional pre-release tag (empty string = no pre-release).  The program's
versions come from `extract_version_string`, which only ever produces
`MAJOR.MINOR.PATCH[-prerelease]` strings, so no build-metadata field is
modelled. -/
structure SemVer where
  major : Nat
  minor : Nat
  patch : Nat
  pre   : String
deriving DecidableEq, Repr

/-- `Engine::iter()` (strum `EnumIter`): variants in declaration order. -/
def Engine.iter : List Engine := [.elasticsearch, .opensearch, .quickwit]

/-- `Arch::iter()`: variants in declaration order. -/
def Arch.iter : List Arch := [.x86_64, .aarch64]

/-- `OperatingSystem::iter()`: variants in declaration order. -/
def OperatingSystem.iter : List OperatingSystem := [.linux, .darwin]

/-- `Arch::format` from the source: the per-engine arch spelling table. -/
def Arch.format (a : Arch) (engine : Engine) : String :=
  match a, engine with
  | .x86_64, .elasticsearch => "x86_64"
  | .x86_64, .opensearch => "x64"
  | .x86_64, .quickwit => "x86_64"
  | .aarch64, .elasticsearch => "aarch64"
  | .aarch64, .opensearch => "arm64"
  | .aarch64, .quickwit => "aarch64"

/-- `OperatingSystem::format` from the source: the per-engine OS spelling
table. -/
def OperatingSystem.format (o : OperatingSystem) (engine : Engine) : String :=
  match o, engine with
  | .linux, .elasticsearch => "linux"
  | .linux, .opensearch => "linux"
  | .linux, .quickwit => "unknown-linux-gnu"
  | .darwin, .elasticsearch => "darwin"
  | .darwin, .opensearch => "darwin"
  | .darwin, .quickwit => "apple-darwin"

/-- `self.to_string().to_lowercase()` on `OperatingSystem` (the `Display`
impl prints the Debug name, then `get_elasticsearch_url` lowercases it). -/
def osLower (o : OperatingSystem) : String :=
  match o with
  | .linux => "linux"
  | .darwin => "darwin"

/-- Decimal digit character, `48 + d` as ASCII. -/
def digitChar (d : Nat) : Char := Char.ofNat (48 + d)

/-- Numeric value of a decimal digit character. -/
def charVal (c : Char) : Nat := c.toNat - 48

/-- Big-endian decimal digit characters of `n`, with explicit fuel so the
definition is structural (and hence kernel-reducible).  `natChars` below
always supplies enough fuel. -/
def natDigitsAux : Nat → Nat → List Char
  | 0, _ => []
  | fuel + 1, n =>
    if n = 0 then [] else natDigitsAux fuel (n / 10) ++ [digitChar (n % 10)]

/-- Decimal representation of `n` as characters (Rust's `u64` `Display`). -/
def natChars (n : Nat) : List Char :=
  if n = 0 then ['0'] else natDigitsAux n n

/-- `semver::Version`'s `Display`: `major.minor.patch`, then `-pre` when a
pre-release tag is present. -/
def verChars (v : SemVer) : List Char :=
  natChars v.major ++ '.' :: natChars v.minor ++ '.' :: natChars v.patch ++
    (if v.pre = "" then [] else '-' :: v.pre.data)

/-- `version.to_string()` for the format-string interpolations. -/
def versionToString (v : SemVer) : String := ⟨verChars v⟩

/-- `get_opensearch_url` from the source.  Note the OS parameter is ignored
(`_system`) and the literal path segment `linux` is emitted. -/
def get_opensearch_url (version : SemVer) (arch : Arch) (_system : OperatingSystem) : String :=
  let a := Arch.format arch Engine.opensearch
  let v := versionToString version
  "https://artifacts.opensearch.org/releases/core/opensearch/" ++ v ++
    "/opensearch-min-" ++ v ++ "-linux-" ++ a ++ ".tar.gz"

/-- `get_elasticsearch_url` from the source: branches on `version.major`
ranges `0|1`, `2..=4`, `5|6`, `7`, `8..`.  In the `7` branch the literal
`x86_64` is emitted instead of the formatted arch. -/
def get_elasticsearch_url (version : SemVer) (arch : Arch) (system : OperatingSystem) : String :=
  let a := Arch.format arch Engine.elasticsearch
  let s := osLower system
  let v := versionToString version
  if version.major ≤ 1 then
    "https://download.elastic.co/elasticsearch/elasticsearch/elasticsearch-" ++ v ++ ".tar.gz"
  else if version.major ≤ 4 then
    "https://download.elastic.co/elasticsearch/release/org/elasticsearch/distribution/tar/elasticsearch/"
      ++ v ++ "/elasticsearch-" ++ v ++ ".tar.gz"
  else if version.major ≤ 6 then
    "https://artifacts.elastic.co/downloads/elasticsearch/elasticsearch-" ++ v ++ ".tar.gz"
  else if version.major = 7 then
    "https://artifacts.elastic.co/downloads/elasticsearch/elasticsearch-" ++ v ++ "-" ++ s
      ++ "-x86_64.tar.gz"
  else
    "https://artifacts.elastic.co/downloads/elasticsearch/elasticsearch-" ++ v ++ "-" ++ s
      ++ "-" ++ a ++ ".tar.gz"

/-- `get_quickwit_url` from the source. -/
def get_quickwit_url (version : SemVer) (arch : Arch) (system : OperatingSystem) : String :=
  let a := Arch.format arch Engine.quickwit
  let s := OperatingSystem.format system Engine.quickwit
  let v := versionToString version
  "https://github.com/quickwit-oss/quickwit/releases/download/v" ++ v ++
    "/quickwit-v" ++ v ++ "-" ++ a ++ "-" ++ s ++ ".tar.gz"

/-- `get_url` from the source: dispatch on the engine.  (URL-syntax parsing
cannot fail on these well-formed format strings, so the `Result` wrapper is
dropped.) -/
def get_url (engine : Engine) (version : SemVer) (arch : Arch) (system : OperatingSystem) : String :=
  match engine with
  | .elasticsearch => get_elasticsearch_url version arch system
  | .opensearch => get_opensearch_url version arch system
  | .quickwit => get_quickwit_url version arch system

/-- `itertools::iproduct!(Arch::iter(), OperatingSystem::iter(), versions)`
from `generate_hashes_for_engine`: nested loops with arch outermost and the
version list innermost (the last iterator of `iproduct!` varies fastest). -/
def enumTuples (versions : List SemVer) : List (Arch × OperatingSystem × SemVer) :=
  Arch.iter.flatMap fun a =>
    OperatingSystem.iter.flatMap fun o =>
      versions.map fun v => (a, o, v)

/-- Version `1.0.0`, a concrete test input. -/
def v100 : SemVer := ⟨1, 0, 0, ""⟩

/-- Version `2.0.0`, a concrete test input. -/
def v200 : SemVer := ⟨2, 0, 0, ""⟩

/-- `struct Details { sha256, url }` from the source (a `NixHash` is a
`String`; the parsed `Url` is kept as its string form). -/
structure Details where
  sha256 : String
  url : String
deriving DecidableEq, Repr

/-- `BTreeMap` lookup on an association list: first entry with the key. -/
def alGet {κ α : Type} [DecidableEq κ] : List (κ × α) → κ → Option α
  | [], _ => none
  | (k, v) :: rest, key => if key = k then some v else alGet rest key

/-- `map.entry(k).or_default()` followed by mutating the obtained entry with
`f`: if `k` is present its value is replaced by `f` of it, otherwise
`(k, f default)` is added.  (A `BTreeMap` keeps entries sorted by key; an
association list records them in insertion order instead, which changes no
lookup and none of the claims here.) -/
def entryAt {κ α : Type} [DecidableEq κ] (m : List (κ × α)) (k : κ) (d : α) (f : α → α) :
    List (κ × α) :=
  match m with
  | [] => [(k, f d)]
  | (k1, v) :: rest => if k = k1 then (k1, f v) :: rest else (k1, v) :: entryAt rest k d f

/-- `map.entry(k).or_insert(v)`: insert `v` only when `k` is absent. -/
def orInsert {κ α : Type} [DecidableEq κ] (m : List (κ × α)) (k : κ) (v : α) : List (κ × α) :=
  match m with
  | [] => [(k, v)]
  | (k1, v1) :: rest => if k = k1 then (k1, v1) :: rest else (k1, v1) :: orInsert rest k v

/-- Innermost manifest level: `BTreeMap<OperatingSystem, Details>`. -/
abbrev OsMap := List (OperatingSystem × Details)

/-- `BTreeMap<Arch, OsMap>`. -/
abbrev ArchMap := List (Arch × OsMap)

/-- `BTreeMap<Version, ArchMap>`. -/
abbrev VerMap := List (SemVer × ArchMap)

/-- `type Manifest = BTreeMap<Engine, BTreeMap<Version, BTreeMap<Arch,
BTreeMap<OperatingSystem, Details>>>>`. -/
abbrev Manifest := List (Engine × VerMap)

/-- `type ManifestTuple = (Engine, Version, Arch, OperatingSystem, Url,
NixHash)`. -/
abbrev ManifestTuple := Engine × SemVer × Arch × OperatingSystem × String × String

/-- The body of `update_manifest`'s receive loop:
`manifest.entry(engine).or_default().entry(version).or_default()
.entry(arch).or_default().entry(system).or_insert(details)`. -/
def applyUpdate (m : Manifest) (t : ManifestTuple) : Manifest :=
  match t with
  | (engine, version, arch, system, url, sha256) =>
    entryAt m engine [] fun vm =>
      entryAt vm version [] fun am =>
        entryAt am arch [] fun om =>
          orInsert om system ⟨sha256, url⟩

/-- The nested lookup used by the scheduler's skip check:
`manifest.get(&engine).and_then(|m| m.get(&version)).and_then(...)`. -/
def manifestGet (m : Manifest) (engine : Engine) (version : SemVer) (arch : Arch)
    (system : OperatingSystem) : Option Details :=
  (alGet m engine).bind fun vm =>
    (alGet vm version).bind fun am =>
      (alGet am arch).bind fun om => alGet om system

/-- Folding the update loop over a whole list of received tuples. -/
def applyAll (m : Manifest) (ts : List ManifestTuple) : Manifest :=
  ts.foldl applyUpdate m

/-- `url_hash_memo.entry(url).or_insert_with(|| get_artifact_hash(url,
client).map_err(Arc::new).shared()).clone()`: get-or-create of the per-URL
single-assignment cell.  A cell holds the shared future's unique result
(value or failure alike); its single evaluation of the underlying fetch is
modelled eagerly at creation and recorded on `fetchLog`. -/
def memoGetOrCreate (fetch : String → Except Unit String)
    (memo : List (String × Except Unit String)) (fetchLog : List String) (url : String) :
    Except Unit String × List (String × Except Unit String) × List String :=
  match alGet memo url with
  | some r => (r, memo, fetchLog)
  | none => (fetch url, memo ++ [(url, fetch url)], fetchLog ++ [url])

/-- A sequence of hash requests against one engine pass's memo, starting
from the given memo state: returns the final memo, the fetch log, and the
result each requester receives. -/
def processRequests (fetch : String → Except Unit String)
    (memo : List (String × Except Unit String)) (fetchLog : List String) :
    List String → List (String × Except Unit String) × List String × List (Except Unit String)
  | [] => (memo, fetchLog, [])
  | u :: rest =>
    let step := memoGetOrCreate fetch memo fetchLog u
    let tail := processRequests fetch step.2.1 step.2.2 rest
    (tail.1, tail.2.1, step.1 :: tail.2.2)

deriving instance DecidableEq for Except

/-- `let concurrency = 4;` in `generate_hashes_for_engine`. -/
def concurrency : Nat := 4

/-- The observable fate of one spawned unit of work
(`set.spawn(async move { let hash = hash.await.unwrap(); manifest_tx.send(..) })`):
`done` — the hash future resolved `Ok`, the tuple was sent, the task
returned `Ok(())`; `failed` — the hash future resolved `Err`, so
`hash.await.unwrap()` panicked inside the task and nothing was sent. -/
inductive TaskRes where
  | done
  | failed
deriving DecidableEq, Repr

/-- State of one `generate_hashes_for_engine` invocation.  `running` is the
engine's `JoinSet` (FIFO completion order), `sent` the tuples pushed into
`manifest_tx`, `trace` the in-flight task count after every spawn/join
event, `panicked` records that `set.join_next().await.unwrap().unwrap()`
panicked on a `JoinError` from a panicked unit, and `halted` that the loop
returned early because `manifest_tx.is_closed()`. -/
structure EngineRun where
  memo : List (String × Except Unit String)
  fetchLog : List String
  running : List TaskRes
  sent : List ManifestTuple
  trace : List Nat
  panicked : Bool
  halted : Bool
deriving DecidableEq, Repr

/-- The engine pass's initial state (empty memo, empty `JoinSet`). -/
def initEngineRun : EngineRun := ⟨[], [], [], [], [], false, false⟩

/-- `while set.len() >= concurrency { if let Err(e) = set.join_next().await
.unwrap().unwrap() { debug!(..) } }`: join completed tasks until a slot is
free.  Joining a `done` task records the new in-flight count and continues;
joining a `failed` task makes the second `.unwrap()` panic on the
`JoinError` (third component `true`). -/
def waitCap (running : List TaskRes) (trace : List Nat) : List TaskRes × List Nat × Bool :=
  match running with
  | [] => ([], trace, false)
  | r :: rest =>
    if concurrency ≤ (r :: rest).length then
      match r with
      | .failed => (rest, trace ++ [rest.length], true)
      | .done => waitCap rest (trace ++ [rest.length])
    else (r :: rest, trace, false)

/-- The final `while let Some(Ok(_)) = set.join_next().await {}` drain: a
`JoinError` from a panicked task fails the pattern and exits the loop (the
remaining tasks are aborted when the `JoinSet` drops). -/
def drainAll (running : List TaskRes) (trace : List Nat) : List Nat :=
  match running with
  | [] => trace
  | TaskRes.done :: rest => drainAll rest (trace ++ [rest.length])
  | TaskRes.failed :: _ => trace

/-- One iteration of the `for (arch, system, version) in tuples` loop of
`generate_hashes_for_engine`: skip when the manifest already has the key;
return when the manifest channel is closed; otherwise derive the URL, join
the memoized hash cell, wait for a concurrency slot (which can re-panic a
unit's panic) and spawn the unit of work. -/
def stepItem (fetch : String → Except Unit String) (txClosed : Bool) (manifest : Manifest)
    (engine : Engine) (st : EngineRun) (item : Arch × OperatingSystem × SemVer) : EngineRun :=
  if st.panicked ∨ st.halted then st
  else
    match item with
    | (arch, system, version) =>
      if (manifestGet manifest engine version arch system).isSome then st
      else if txClosed then { st with halted := true }
      else
        let url := get_url engine version arch system
        let memoStep := memoGetOrCreate fetch st.memo st.fetchLog url
        let capStep := waitCap st.running st.trace
        if capStep.2.2 then
          { st with memo := memoStep.2.1, fetchLog := memoStep.2.2,
                    running := capStep.1, trace := capStep.2.1, panicked := true }
        else
          match memoStep.1 with
          | .ok h =>
            { st with memo := memoStep.2.1, fetchLog := memoStep.2.2,
                      running := capStep.1 ++ [TaskRes.done],
                      trace := capStep.2.1 ++ [capStep.1.length + 1],
                      sent := st.sent ++ [(engine, version, arch, system, url, h)] }
          | .error _ =>
            { st with memo := memoStep.2.1, fetchLog := memoStep.2.2,
                      running := capStep.1 ++ [TaskRes.failed],
                      trace := capStep.2.1 ++ [capStep.1.length + 1] }

/-- `generate_hashes_for_engine`: fold the loop body over the enumerated
cross product, then (unless the loop panicked or returned early) drain the
remaining tasks. -/
def runEngine (fetch : String → Except Unit String) (txClosed : Bool) (manifest : Manifest)
    (engine : Engine) (versions : List SemVer) : EngineRun :=
  let st := (enumTuples versions).foldl (stepItem fetch txClosed manifest engine) initEngineRun
  if st.panicked ∨ st.halted then st
  else { st with trace := drainAll st.running st.trace, running := [] }

/-- Version `7.17.9`, a concrete test input in the Elasticsearch major-7
URL branch. -/
def v7179 : SemVer := ⟨7, 17, 9, ""⟩

/-- A transport on which exactly one URL — the artifact URL of
`(quickwit, 1.0.0, x86_64, linux)`, the first enumerated combination —
fails, and every other fetch hashes to `"hash"`. -/
def failFetch : String → Except Unit String :=
  fun u =>
    if u = get_url Engine.quickwit v100 Arch.x86_64 OperatingSystem.linux then Except.error ()
    else Except.ok "hash"

/-- The quickwit engine pass over versions `[1.0.0, 2.0.0]` (8 work items)
with an empty starting manifest, against `failFetch`. -/
def c1run : EngineRun := runEngine failFetch false [] Engine.quickwit [v100, v200]

end SearchPkgs

namespace SearchPkgs

/-- C1: evaluating `generate_hashes_for_engine` at a failing input.  The
claim says a per-artifact fetch failure is logged and contained (the unit
abandoned, the run and sibling work unaffected).  In the code the unit task
runs `hash.await.unwrap()`, which panics on the shared failure, and when
the concurrency barrier joins that task, `set.join_next().await.unwrap()
.unwrap()` re-panics on the `JoinError`, aborting the engine's whole pass:
here the pass `panicked`, only work items 2–4 were ever sent, the last four
of the 8 enumerated combinations were never attempted, and — the part of
the claim the code does satisfy — no tuple for the failed combination
`(quickwit, 1.0.0, x86_64, linux)` was sent. -/
theorem artifact_failure_panics_engine_pass :
    c1run.panicked = true
  ∧ c1run.sent = [
      (Engine.quickwit, v200, Arch.x86_64, OperatingSystem.linux,
        get_url Engine.quickwit v200 Arch.x86_64 OperatingSystem.linux, "hash"),
      (Engine.quickwit, v100, Arch.x86_64, OperatingSystem.darwin,
        get_url Engine.quickwit v100 Arch.x86_64 OperatingSystem.darwin, "hash"),
      (Engine.quickwit, v200, Arch.x86_64, OperatingSystem.darwin,
        get_url Engine.quickwit v200 Arch.x86_64 OperatingSystem.darwin, "hash")]
  ∧ (enumTuples [v100, v200]).length = 8 := by
  refine ⟨rfl, ?_, rfl⟩
  decide

/-- C9 counterexample: with the version list `[1.0.0, 2.0.0]`, the variant
`(x86_64, linux)` of the later version `2.0.0` is enumerated at index 1,
before the variant `(x86_64, darwin)` of the earlier version `1.0.0` at
index 2 — so it is false that all variants of an earlier version are
visited before any variant of a later version. -/
theorem enumeration_not_version_outer :
    ∃ i j : Nat, i < j
      ∧ (enumTuples [v100, v200])[i]? = some (Arch.x86_64, OperatingSystem.linux, v200)
      ∧ (enumTuples [v100, v200])[j]? = some (Arch.x86_64, OperatingSystem.darwin, v100) :=
  ⟨1, 2, by decide, by decide, by decide⟩

/-- C9 (amended): `iproduct!(Arch::iter(), OperatingSystem::iter(),
versions)` enumerates the full cross product with *arch* as the outer axis,
then OS, and the version list innermost: all versions of an earlier
`(arch, os)` pair are visited before any version of a later pair, and every
`(arch, os, version)` combination with `version ∈ versions` appears. -/
theorem enumeration_arch_outer :
    (∀ versions : List SemVer,
      enumTuples versions =
        (versions.map fun v => (Arch.x86_64, OperatingSystem.linux, v))
          ++ (versions.map fun v => (Arch.x86_64, OperatingSystem.darwin, v))
          ++ (versions.map fun v => (Arch.aarch64, OperatingSystem.linux, v))
          ++ (versions.map fun v => (Arch.aarch64, OperatingSystem.darwin, v)))
  ∧ (∀ (versions : List SemVer) (a : Arch) (o : OperatingSystem) (v : SemVer),
      (a, o, v) ∈ enumTuples versions ↔ v ∈ versions) := by
  constructor
  · intro versions
    simp [enumTuples, Arch.iter, OperatingSystem.iter]
  · intro versions a o v
    cases a <;> cases o <;>
      simp [enumTuples, Arch.iter, OperatingSystem.iter]

/-- C10: URL derivation is not injective in the manifest key.  For
OpenSearch the OS argument is ignored (the literal segment `linux` is
emitted), so the linux and darwin keys share one URL; for Elasticsearch
major 7 the literal segment `x86_64` is emitted, so the x86_64 and aarch64
keys share one URL. -/
theorem url_derivation_not_injective :
    (∀ (version : SemVer) (arch : Arch),
        get_url Engine.opensearch version arch OperatingSystem.linux
          = get_url Engine.opensearch version arch OperatingSystem.darwin)
  ∧ (∀ (version : SemVer) (system : OperatingSystem), version.major = 7 →
        get_url Engine.elasticsearch version Arch.x86_64 system
          = get_url Engine.elasticsearch version Arch.aarch64 system) := by
  constructor
  · intro version arch
    rfl
  · intro version system h
    simp [get_url, get_elasticsearch_url, h]

theorem alGet_entryAt_self {κ α : Type} [DecidableEq κ] (m : List (κ × α)) (k : κ) (d : α)
    (f : α → α) : alGet (entryAt m k d f) k = some (f ((alGet m k).getD d)) := by
  induction m with
  | nil => simp [entryAt, alGet]
  | cons p rest ih =>
    obtain ⟨k1, v⟩ := p
    by_cases h : k = k1
    · simp [entryAt, alGet, h]
    · simp [entryAt, alGet, h, ih]

theorem entryAt_of_present {κ α : Type} [DecidableEq κ] {m : List (κ × α)} {k : κ} {v : α}
    (d : α) (f : α → α) (hget : alGet m k = some v) (hf : f v = v) : entryAt m k d f = m := by
  induction m with
  | nil => simp [alGet] at hget
  | cons p rest ih =>
    obtain ⟨k1, w⟩ := p
    by_cases h : k = k1
    · simp [alGet, h] at hget
      simp [entryAt, h, hget, hf]
    · simp [alGet, h] at hget
      simp [entryAt, h, ih hget]

theorem alGet_orInsert_self {κ α : Type} [DecidableEq κ] (m : List (κ × α)) (k : κ) (v : α) :
    alGet (orInsert m k v) k = some ((alGet m k).getD v) := by
  induction m with
  | nil => simp [orInsert, alGet]
  | cons p rest ih =>
    obtain ⟨k1, w⟩ := p
    by_cases h : k = k1
    · simp [orInsert, alGet, h]
    · simp [orInsert, alGet, h, ih]

theorem orInsert_of_present {κ α : Type} [DecidableEq κ] {m : List (κ × α)} {k : κ} {w : α}
    (v : α) (hget : alGet m k = some w) : orInsert m k v = m := by
  induction m with
  | nil => simp [alGet] at hget
  | cons p rest ih =>
    obtain ⟨k1, u⟩ := p
    by_cases h : k = k1
    · simp [orInsert, h]
    · simp [alGet, h] at hget
      simp [orInsert, h, ih hget]

theorem applyUpdate_of_present {m : Manifest} {engine : Engine} {version : SemVer} {arch : Arch}
    {system : OperatingSystem} (url sha : String) {d0 : Details}
    (hget : manifestGet m engine version arch system = some d0) :
    applyUpdate m (engine, version, arch, system, url, sha) = m := by
  unfold manifestGet at hget
  cases hvm : alGet m engine with
  | none => rw [hvm] at hget; simp at hget
  | some vm =>
    rw [hvm] at hget
    simp only [Option.some_bind] at hget
    cases ham : alGet vm version with
    | none => rw [ham] at hget; simp at hget
    | some am =>
      rw [ham] at hget
      simp only [Option.some_bind] at hget
      cases hom : alGet am arch with
      | none => rw [hom] at hget; simp at hget
      | some om =>
        rw [hom] at hget
        simp only [Option.some_bind] at hget
        unfold applyUpdate
        exact entryAt_of_present _ _ hvm
          (entryAt_of_present _ _ ham
            (entryAt_of_present _ _ hom (orInsert_of_present _ hget)))

theorem manifestGet_applyUpdate_isSome (m : Manifest) (engine : Engine) (version : SemVer)
    (arch : Arch) (system : OperatingSystem) (url sha : String) :
    (manifestGet (applyUpdate m (engine, version, arch, system, url, sha))
      engine version arch system).isSome = true := by
  simp [applyUpdate, manifestGet, alGet_entryAt_self, alGet_orInsert_self]

/-- C3: `update_manifest`'s nested
`entry(..).or_default()...entry(system).or_insert(details)` is an
insert-if-absent: when the key is already mapped the whole manifest is left
unchanged whatever new details arrive, after an apply the key is always
mapped, and apply is idempotent. -/
theorem manifest_insert_if_absent :
    (∀ (m : Manifest) (engine : Engine) (version : SemVer) (arch : Arch)
        (system : OperatingSystem) (url sha : String) (d0 : Details),
        manifestGet m engine version arch system = some d0 →
        applyUpdate m (engine, version, arch, system, url, sha) = m)
  ∧ (∀ (m : Manifest) (engine : Engine) (version : SemVer) (arch : Arch)
        (system : OperatingSystem) (url sha : String),
        (manifestGet (applyUpdate m (engine, version, arch, system, url, sha))
          engine version arch system).isSome = true)
  ∧ (∀ (m : Manifest) (t : ManifestTuple), applyUpdate (applyUpdate m t) t = applyUpdate m t) := by
  refine ⟨fun m e v a o url sha d0 hget => applyUpdate_of_present url sha hget,
    fun m e v a o url sha => manifestGet_applyUpdate_isSome m e v a o url sha,
    fun m t => ?_⟩
  obtain ⟨engine, version, arch, system, url, sha⟩ := t
  obtain ⟨d0, hd0⟩ := Option.isSome_iff_exists.mp
    (manifestGet_applyUpdate_isSome m engine version arch system url sha)
  exact applyUpdate_of_present url sha hd0

theorem alGet_mem {κ α : Type} [DecidableEq κ] {m : List (κ × α)} {k : κ} {v : α}
    (h : alGet m k = some v) : (k, v) ∈ m := by
  induction m with
  | nil => simp [alGet] at h
  | cons p rest ih =>
    obtain ⟨k1, w⟩ := p
    by_cases hk : k = k1
    · simp [alGet, hk] at h
      simp [hk, h]
    · simp [alGet, hk] at h
      exact List.mem_cons_of_mem _ (ih h)

theorem alGet_append_left {κ α : Type} [DecidableEq κ] {l₁ : List (κ × α)} (l₂ : List (κ × α))
    {k : κ} {r : α} (h : alGet l₁ k = some r) : alGet (l₁ ++ l₂) k = some r := by
  induction l₁ with
  | nil => simp [alGet] at h
  | cons p rest ih =>
    obtain ⟨k1, v⟩ := p
    by_cases hk : k = k1
    · simp [alGet, hk] at h ⊢
      exact h
    · simp [alGet, hk] at h ⊢
      exact ih h

theorem alGet_append_single_isSome {κ α : Type} [DecidableEq κ] (m : List (κ × α)) (k x : κ)
    (v : α) : (alGet (m ++ [(k, v)]) x).isSome = true ↔ (alGet m x).isSome = true ∨ x = k := by
  induction m with
  | nil => by_cases h : x = k <;> simp [alGet, h]
  | cons p rest ih =>
    obtain ⟨k1, w⟩ := p
    by_cases h : x = k1
    · simp [alGet, h]
    · simpa [alGet, h] using ih

theorem processRequests_results (fetch : String → Except Unit String) (urls : List String) :
    ∀ memo log, (∀ p ∈ memo, p.2 = fetch p.1) →
      (processRequests fetch memo log urls).2.2 = urls.map fetch := by
  induction urls with
  | nil => intro memo log _; rfl
  | cons u rest ih =>
    intro memo log hinv
    cases hc : alGet memo u with
    | some r =>
      have hr : r = fetch u := hinv (u, r) (alGet_mem hc)
      simp only [processRequests, memoGetOrCreate, hc, List.map_cons]
      exact congrArg₂ _ hr (ih memo log hinv)
    | none =>
      simp only [processRequests, memoGetOrCreate, hc, List.map_cons]
      refine congrArg _ (ih _ _ ?_)
      intro p hp
      rcases List.mem_append.mp hp with h | h
      · exact hinv p h
      · simp at h
        simp [h]

theorem processRequests_log (fetch : String → Except Unit String) (urls : List String) :
    ∀ memo log, log.Nodup → (∀ u : String, u ∈ log ↔ (alGet memo u).isSome = true) →
      (processRequests fetch memo log urls).2.1.Nodup
      ∧ ∀ x : String, x ∈ (processRequests fetch memo log urls).2.1 ↔ (x ∈ log ∨ x ∈ urls) := by
  induction urls with
  | nil =>
    intro memo log hnd _
    exact ⟨hnd, fun x => by simp [processRequests]⟩
  | cons u rest ih =>
    intro memo log hnd hiff
    cases hc : alGet memo u with
    | some r =>
      have hu : u ∈ log := (hiff u).mpr (by simp [hc])
      have := ih memo log hnd hiff
      refine ⟨by simpa only [processRequests, memoGetOrCreate, hc] using this.1, fun x => ?_⟩
      have hx := this.2 x
      simp only [processRequests, memoGetOrCreate, hc] at hx ⊢
      rw [hx]
      constructor
      · rintro (h | h)
        · exact Or.inl h
        · exact Or.inr (List.mem_cons_of_mem _ h)
      · rintro (h | h)
        · exact Or.inl h
        · rcases List.mem_cons.mp h with h | h
          · exact Or.inl (h ▸ hu)
          · exact Or.inr h
    | none =>
      have hu : u ∉ log := fun h => by
        have := (hiff u).mp h
        rw [hc] at this
        simp at this
      have hnd' : (log ++ [u]).Nodup := by
        simp [List.nodup_append, hnd, hu]
      have hiff' : ∀ x : String, x ∈ log ++ [u]
          ↔ (alGet (memo ++ [(u, fetch u)]) x).isSome = true := by
        intro x
        rw [alGet_append_single_isSome]
        simp only [List.mem_append, List.mem_singleton]
        rw [hiff x]
      have := ih (memo ++ [(u, fetch u)]) (log ++ [u]) hnd' hiff'
      refine ⟨by simpa only [processRequests, memoGetOrCreate, hc] using this.1, fun x => ?_⟩
      have hx := this.2 x
      simp only [processRequests, memoGetOrCreate, hc] at hx ⊢
      rw [hx]
      simp only [List.mem_append, List.mem_singleton, List.mem_cons]
      tauto

theorem processRequests_memo_extend (fetch : String → Except Unit String) (urls : List String) :
    ∀ memo log, ∃ Δ, (processRequests fetch memo log urls).1 = memo ++ Δ := by
  induction urls with
  | nil => intro memo log; exact ⟨[], by simp [processRequests]⟩
  | cons u rest ih =>
    intro memo log
    cases hc : alGet memo u with
    | some r =>
      obtain ⟨Δ, hΔ⟩ := ih memo log
      exact ⟨Δ, by simpa only [processRequests, memoGetOrCreate, hc] using hΔ⟩
    | none =>
      obtain ⟨Δ, hΔ⟩ := ih (memo ++ [(u, fetch u)]) (log ++ [u])
      refine ⟨(u, fetch u) :: Δ, ?_⟩
      simp only [processRequests, memoGetOrCreate, hc]
      rw [hΔ, List.append_assoc]
      rfl

theorem processRequests_append_memo (fetch : String → Except Unit String)
    (l₁ l₂ : List String) : ∀ memo log,
    (processRequests fetch memo log (l₁ ++ l₂)).1 =
      (processRequests fetch (processRequests fetch memo log l₁).1
        (processRequests fetch memo log l₁).2.1 l₂).1 := by
  induction l₁ with
  | nil => intro memo log; rfl
  | cons u rest ih =>
    intro memo log
    cases hc : alGet memo u with
    | some r =>
      simp only [List.cons_append, processRequests, memoGetOrCreate, hc]
      exact ih memo log
    | none =>
      simp only [List.cons_append, processRequests, memoGetOrCreate, hc]
      exact ih (memo ++ [(u, fetch u)]) (log ++ [u])

/-- C2: the per-URL memo of one engine pass.  Every requester of a URL
receives the shared cell's unique result — value or failure alike — so the
result sequence is exactly `urls.map fetch`; the fetch log (one entry per
cell creation, i.e. per underlying fetch) has no duplicates and covers
exactly the requested URLs, so any number of requests for the same URL
trigger exactly one fetch; and a cell, once created, survives any further
requests of the pass unchanged (the memo is never cleared). -/
theorem hash_memo_contract :
    (∀ (fetch : String → Except Unit String) (urls : List String),
        (processRequests fetch [] [] urls).2.2 = urls.map fetch)
  ∧ (∀ (fetch : String → Except Unit String) (urls : List String),
        (processRequests fetch [] [] urls).2.1.Nodup
        ∧ ∀ u : String, u ∈ (processRequests fetch [] [] urls).2.1 ↔ u ∈ urls)
  ∧ (∀ (fetch : String → Except Unit String) (urls₁ urls₂ : List String) (u : String)
        (r : Except Unit String),
        alGet (processRequests fetch [] [] urls₁).1 u = some r →
        alGet (processRequests fetch [] [] (urls₁ ++ urls₂)).1 u = some r) := by
  refine ⟨fun fetch urls => processRequests_results fetch urls [] [] (by simp),
    fun fetch urls => ?_, fun fetch urls₁ urls₂ u r h => ?_⟩
  · have := processRequests_log fetch urls [] [] (by simp) (by simp [alGet])
    exact ⟨this.1, fun u => by simpa using this.2 u⟩
  · rw [processRequests_append_memo]
    obtain ⟨Δ, hΔ⟩ := processRequests_memo_extend fetch urls₂
      (processRequests fetch [] [] urls₁).1 (processRequests fetch [] [] urls₁).2.1
    rw [hΔ]
    exact alGet_append_left Δ h

/-- A transport where every fetch succeeds with hash `"h"`. -/
def okFetch : String → Except Unit String := fun _ => Except.ok "h"

/-- Concrete instance of `hash_memo_contract`: requesting `a` again after
`a` and `b` still finds the original cell and its result. -/
theorem hash_memo_contract_witness :
    alGet (processRequests okFetch [] [] (["a"] ++ ["b"])).1 "a" = some (Except.ok "h") :=
  hash_memo_contract.2.2 okFetch ["a"] ["b"] "a" (Except.ok "h") (by decide)

theorem mem_enumTuples (versions : List SemVer) (a : Arch) (o : OperatingSystem) (v : SemVer) :
    (a, o, v) ∈ enumTuples versions ↔ v ∈ versions := by
  cases a <;> cases o <;> simp [enumTuples, Arch.iter, OperatingSystem.iter]

theorem stepItem_of_present (fetch : String → Except Unit String) (txClosed : Bool)
    (manifest : Manifest) (engine : Engine) (st : EngineRun) {arch : Arch}
    {system : OperatingSystem} {version : SemVer}
    (h : (manifestGet manifest engine version arch system).isSome = true) :
    stepItem fetch txClosed manifest engine st (arch, system, version) = st := by
  unfold stepItem
  by_cases hph : st.panicked ∨ st.halted
  · simp [hph]
  · simp [hph, h]

theorem foldl_stepItem_skip (fetch : String → Except Unit String) (txClosed : Bool)
    (manifest : Manifest) (engine : Engine) (items : List (Arch × OperatingSystem × SemVer))
    (h : ∀ it ∈ items, (manifestGet manifest engine it.2.2 it.1 it.2.1).isSome = true) :
    ∀ st : EngineRun, items.foldl (stepItem fetch txClosed manifest engine) st = st := by
  induction items with
  | nil => intro st; rfl
  | cons it rest ih =>
    intro st
    obtain ⟨arch, system, version⟩ := it
    rw [List.foldl_cons,
      stepItem_of_present fetch txClosed manifest engine st (h _ (List.mem_cons_self _ _))]
    exact ih (fun it hit => h it (List.mem_cons_of_mem _ hit)) st

/-- C4: the scheduler's skip check.  A combination already present in the
manifest leaves the engine state untouched (no URL derived, no memo cell
created, no fetch logged, no task spawned); consequently a whole pass over
a manifest that already holds every enumerated key performs zero fetches
and sends nothing. -/
theorem scheduler_skips_present_keys :
    (∀ (fetch : String → Except Unit String) (txClosed : Bool) (manifest : Manifest)
        (engine : Engine) (st : EngineRun) (arch : Arch) (system : OperatingSystem)
        (version : SemVer),
        (manifestGet manifest engine version arch system).isSome = true →
        stepItem fetch txClosed manifest engine st (arch, system, version) = st)
  ∧ (∀ (fetch : String → Except Unit String) (manifest : Manifest) (engine : Engine)
        (versions : List SemVer),
        (∀ (arch : Arch) (system : OperatingSystem) (version : SemVer), version ∈ versions →
          (manifestGet manifest engine version arch system).isSome = true) →
        (runEngine fetch false manifest engine versions).fetchLog = []
        ∧ (runEngine fetch false manifest engine versions).sent = []) := by
  refine ⟨fun fetch txClosed manifest engine st arch system version h =>
    stepItem_of_present fetch txClosed manifest engine st h,
    fun fetch manifest engine versions hall => ?_⟩
  have hfold := foldl_stepItem_skip fetch false manifest engine (enumTuples versions)
    (fun it hit => hall it.1 it.2.1 it.2.2 ((mem_enumTuples versions it.1 it.2.1 it.2.2).mp
      (by simpa using hit))) initEngineRun
  unfold runEngine
  rw [hfold]
  exact ⟨rfl, rfl⟩

/-- The manifest that already holds all four `(arch, os)` variants of
`(quickwit, 1.0.0)`, a concrete witness input. -/
def mfull : Manifest :=
  applyAll []
    ((enumTuples [v100]).map fun it => (Engine.quickwit, it.2.2, it.1, it.2.1, "u", "h"))

/-- Concrete instance of `scheduler_skips_present_keys`: one present
combination is skipped without touching the state, and a second pass over
the fully populated `mfull` fetches nothing and sends nothing. -/
theorem scheduler_skips_present_keys_witness :
    stepItem okFetch false mfull Engine.quickwit initEngineRun
      (Arch.x86_64, OperatingSystem.linux, v100) = initEngineRun
    ∧ (runEngine okFetch false mfull Engine.quickwit [v100]).fetchLog = []
    ∧ (runEngine okFetch false mfull Engine.quickwit [v100]).sent = [] :=
  ⟨scheduler_skips_present_keys.1 okFetch false mfull Engine.quickwit initEngineRun
      Arch.x86_64 OperatingSystem.linux v100 (by decide),
   (scheduler_skips_present_keys.2 okFetch mfull Engine.quickwit [v100] (by
      intro arch system version hv
      have hv' : version = v100 := by simpa using hv
      subst hv'
      cases arch <;> cases system <;> decide)).1,
   (scheduler_skips_present_keys.2 okFetch mfull Engine.quickwit [v100] (by
      intro arch system version hv
      have hv' : version = v100 := by simpa using hv
      subst hv'
      cases arch <;> cases system <;> decide)).2⟩

theorem waitCap_nil (tr : List Nat) : waitCap [] tr = ([], tr, false) := rfl

theorem waitCap_cons_lt (r : TaskRes) (rest : List TaskRes) (tr : List Nat)
    (h : ¬ concurrency ≤ (r :: rest).length) :
    waitCap (r :: rest) tr = (r :: rest, tr, false) := by
  unfold waitCap
  split
  · next hcond => exact absurd hcond h
  · rfl

theorem waitCap_cons_failed (rest : List TaskRes) (tr : List Nat)
    (h : concurrency ≤ (TaskRes.failed :: rest).length) :
    waitCap (TaskRes.failed :: rest) tr = (rest, tr ++ [rest.length], true) := by
  unfold waitCap
  split
  · rfl
  · next hcond => exact absurd h hcond

theorem waitCap_cons_done (rest : List TaskRes) (tr : List Nat)
    (h : concurrency ≤ (TaskRes.done :: rest).length) :
    waitCap (TaskRes.done :: rest) tr = waitCap rest (tr ++ [rest.length]) := by
  conv_lhs => unfold waitCap
  split
  · rfl
  · next hcond => exact absurd h hcond

theorem waitCap_le (running : List TaskRes) (tr : List Nat)
    (h : running.length ≤ concurrency) : (waitCap running tr).1.length ≤ concurrency := by
  induction running generalizing tr with
  | nil => simp [waitCap_nil]
  | cons r rest ih =>
    by_cases hc : concurrency ≤ (r :: rest).length
    · match r with
      | .failed =>
        rw [waitCap_cons_failed rest tr hc]
        simp only [List.length_cons] at h
        simp
        omega
      | .done =>
        rw [waitCap_cons_done rest tr hc]
        exact ih _ (by simp at h ⊢; omega)
    · rw [waitCap_cons_lt r rest tr hc]
      simpa using h

theorem waitCap_lt (running : List TaskRes) (tr : List Nat)
    (h : (waitCap running tr).2.2 = false) : (waitCap running tr).1.length < concurrency := by
  induction running generalizing tr with
  | nil => simp [waitCap_nil, concurrency]
  | cons r rest ih =>
    by_cases hc : concurrency ≤ (r :: rest).length
    · match r with
      | .failed =>
        rw [waitCap_cons_failed rest tr hc] at h
        simp at h
      | .done =>
        rw [waitCap_cons_done rest tr hc] at h ⊢
        exact ih _ h
    · rw [waitCap_cons_lt r rest tr hc]
      simp only [List.length_cons] at hc ⊢
      omega

theorem waitCap_trace (running : List TaskRes) (tr : List Nat)
    (h1 : running.length ≤ concurrency) (h2 : ∀ x ∈ tr, x ≤ concurrency) :
    ∀ x ∈ (waitCap running tr).2.1, x ≤ concurrency := by
  induction running generalizing tr with
  | nil => simpa [waitCap_nil] using h2
  | cons r rest ih =>
    by_cases hc : concurrency ≤ (r :: rest).length
    · match r with
      | .failed =>
        rw [waitCap_cons_failed rest tr hc]
        intro x hx
        rcases List.mem_append.mp hx with hx | hx
        · exact h2 x hx
        · simp at hx
          simp at h1
          omega
      | .done =>
        rw [waitCap_cons_done rest tr hc]
        refine ih _ (by simp at h1 ⊢; omega) ?_
        intro x hx
        rcases List.mem_append.mp hx with hx | hx
        · exact h2 x hx
        · simp at hx
          simp at h1
          omega
    · rw [waitCap_cons_lt r rest tr hc]
      exact h2

theorem stepItem_inv (fetch : String → Except Unit String) (txClosed : Bool)
    (manifest : Manifest) (engine : Engine) (st : EngineRun)
    (item : Arch × OperatingSystem × SemVer)
    (h1 : st.running.length ≤ concurrency) (h2 : ∀ x ∈ st.trace, x ≤ concurrency) :
    (stepItem fetch txClosed manifest engine st item).running.length ≤ concurrency
    ∧ ∀ x ∈ (stepItem fetch txClosed manifest engine st item).trace, x ≤ concurrency := by
  obtain ⟨arch, system, version⟩ := item
  have hle := waitCap_le st.running st.trace h1
  have htr := waitCap_trace st.running st.trace h1 h2
  unfold stepItem
  split
  · exact ⟨h1, h2⟩
  · dsimp only
    split
    · exact ⟨h1, h2⟩
    · split
      · exact ⟨h1, h2⟩
      · split
        · exact ⟨hle, htr⟩
        next hpan =>
          have hlt := waitCap_lt st.running st.trace (by simpa using hpan)
          split
          all_goals
            refine ⟨by simp; omega, ?_⟩
            intro x hx
            simp only [] at hx
            rcases List.mem_append.mp hx with hx | hx
            · exact htr x hx
            · simp at hx
              omega

theorem foldl_stepItem_inv (fetch : String → Except Unit String) (txClosed : Bool)
    (manifest : Manifest) (engine : Engine) (items : List (Arch × OperatingSystem × SemVer)) :
    ∀ st : EngineRun, st.running.length ≤ concurrency → (∀ x ∈ st.trace, x ≤ concurrency) →
      (items.foldl (stepItem fetch txClosed manifest engine) st).running.length ≤ concurrency
      ∧ ∀ x ∈ (items.foldl (stepItem fetch txClosed manifest engine) st).trace,
          x ≤ concurrency := by
  induction items with
  | nil => intro st h1 h2; exact ⟨h1, h2⟩
  | cons it rest ih =>
    intro st h1 h2
    have := stepItem_inv fetch txClosed manifest engine st it h1 h2
    exact ih _ this.1 this.2

theorem drainAll_trace (running : List TaskRes) :
    ∀ tr : List Nat, running.length ≤ concurrency → (∀ x ∈ tr, x ≤ concurrency) →
      ∀ x ∈ drainAll running tr, x ≤ concurrency := by
  induction running with
  | nil => intro tr _ h2; simpa [drainAll] using h2
  | cons r rest ih =>
    intro tr h1 h2
    match r with
    | .failed => simpa [drainAll] using h2
    | .done =>
      refine ih _ (by simp at h1 ⊢; omega) ?_
      intro x hx
      rcases List.mem_append.mp hx with hx | hx
      · exact h2 x hx
      · simp at hx
        simp at h1
        omega

/-- C6: the per-engine concurrency bound.  Every in-flight task count the
engine pass ever reaches (recorded after each spawn and each join) is at
most `concurrency = 4`; and whenever the slot wait returns without
panicking, strictly fewer than `concurrency` tasks remain in flight — i.e.
at the capacity a completion is always joined before the next spawn. -/
theorem engine_concurrency_bound :
    (∀ (fetch : String → Except Unit String) (txClosed : Bool) (manifest : Manifest)
        (engine : Engine) (versions : List SemVer) (x : Nat),
        x ∈ (runEngine fetch txClosed manifest engine versions).trace → x ≤ concurrency)
  ∧ (∀ (running : List TaskRes) (tr : List Nat),
        (waitCap running tr).2.2 = false → (waitCap running tr).1.length < concurrency) := by
  refine ⟨fun fetch txClosed manifest engine versions x hx => ?_,
    fun running tr h => waitCap_lt running tr h⟩
  have hfold := foldl_stepItem_inv fetch txClosed manifest engine (enumTuples versions)
    initEngineRun (by simp [initEngineRun]) (by simp [initEngineRun])
  simp only [runEngine] at hx
  split at hx
  · exact hfold.2 x hx
  · exact drainAll_trace _ _ hfold.1 hfold.2 x hx

/-- Concrete instance of `engine_concurrency_bound`: the quickwit pass over
one version reaches an in-flight count of 4 and never more. -/
theorem engine_concurrency_bound_witness :
    (4 ∈ (runEngine okFetch false [] Engine.quickwit [v100]).trace ∧ 4 ≤ concurrency)
    ∧ (waitCap [] []).1.length < concurrency :=
  ⟨⟨by decide, engine_concurrency_bound.1 okFetch false [] Engine.quickwit [v100] 4 (by decide)⟩,
    engine_concurrency_bound.2 [] [] (by decide)⟩

/-- Strip `pat` from the front of `s`, returning the remainder. -/
def dropPat? : List Char → List Char → Option (List Char)
  | [], s => some s
  | _ :: _, [] => none
  | p :: ps, c :: cs => if c = p then dropPat? ps cs else none

/-- Worker for `str::replace`: replace every non-overlapping occurrence of
`pat`, scanning left to right and continuing after each replacement.  The
fuel (`s.length` at the top level) keeps the recursion structural; every
step consumes at least one input character, so the fuel never runs out for
the non-empty patterns used here. -/
def replaceAux (pat rep : List Char) : Nat → List Char → List Char
  | _, [] => []
  | 0, s => s
  | fuel + 1, c :: rest =>
    match pat with
    | [] => c :: rest
    | p :: ps =>
      if c = p then
        match dropPat? ps rest with
        | some rem => rep ++ replaceAux pat rep fuel rem
        | none => c :: replaceAux pat rep fuel rest
      else c :: replaceAux pat rep fuel rest

/-- `str::replace(pat, rep)` on character lists. -/
def replaceList (pat rep s : List Char) : List Char := replaceAux pat rep s.length s

/-- `str.replace(".Beta", "-beta").replace(".RC", "-rc")` — the pre-release
normalization `extract_version_string` applies before matching. -/
def normalizeTag (l : List Char) : List Char :=
  replaceList ['.', 'R', 'C'] ['-', 'r', 'c']
    (replaceList ['.', 'B', 'e', 't', 'a'] ['-', 'b', 'e', 't', 'a'] l)

/-- The character class `[a-z0-9]` of the pre-release group. -/
def isLowerAlnum (c : Char) : Bool := ('a' ≤ c && c ≤ 'z') || c.isDigit

/-- The version group `[0-9]+\.[0-9]+\.[0-9]+(-[a-z0-9]+)?` matched at the
head of `s` with the regex crate's greedy (leftmost-first) semantics: each
`[0-9]+` takes the maximal digit run (taking fewer digits can never turn a
failure into a success, nor is it preferred), the optional pre-release
group is taken when `-` is followed by at least one `[a-z0-9]`, maximally;
the trailing `.*$` of the whole pattern constrains nothing here. -/
def matchVersionAt (s : List Char) : Option (List Char) :=
  let d1 := s.takeWhile Char.isDigit
  if d1.isEmpty then none
  else
    match s.dropWhile Char.isDigit with
    | '.' :: s2 =>
      let d2 := s2.takeWhile Char.isDigit
      if d2.isEmpty then none
      else
        match s2.dropWhile Char.isDigit with
        | '.' :: s3 =>
          let d3 := s3.takeWhile Char.isDigit
          if d3.isEmpty then none
          else
            match s3.dropWhile Char.isDigit with
            | '-' :: s4 =>
              let p := s4.takeWhile isLowerAlnum
              if p.isEmpty then some (d1 ++ '.' :: d2 ++ '.' :: d3)
              else some (d1 ++ '.' :: d2 ++ '.' :: d3 ++ '-' :: p)
            | _ => some (d1 ++ '.' :: d2 ++ '.' :: d3)
        | _ => none
    | _ => none

/-- The capture of the anchored pattern `^.*(?<version>…).*$`: the leading
greedy `.*` consumes as much as possible, so the version group is matched
at the *latest* starting offset at which it can match at all.  Scanning is
written tail-first: the match of a deeper suffix (a later offset) wins. -/
def lastMatch : List Char → Option (List Char)
  | [] => none
  | c :: rest =>
    match lastMatch rest with
    | some v => some v
    | none => matchVersionAt (c :: rest)

/-- The earliest-offset match — what the spec's words "the first embedded
`MAJOR.MINOR.PATCH[-prerelease]` substring" describe. -/
def firstMatch : List Char → Option (List Char)
  | [] => none
  | c :: rest =>
    match matchVersionAt (c :: rest) with
    | some v => some v
    | none => firstMatch rest

/-- The latest-offset match phrased directly over offsets: try the starting
offsets in decreasing order and return the first hit. -/
def latestMatchSpec (t : List Char) : Option (List Char) :=
  (List.range t.length).reverse.findSome? fun i => matchVersionAt (t.drop i)

/-- `extract_version_string` from the source: normalize `.Beta`/`.RC`, then
run `^.*(?<version>[0-9]+\.[0-9]+\.[0-9]+(-[a-z0-9]+)?).*$` and return the
`version` capture.  `.` does not match a newline, so a haystack containing
one cannot match the anchored pattern at all. -/
def extract_version_string (s : String) : Option String :=
  let t := normalizeTag s.data
  if t.any (fun c => c = '\n') then none
  else (lastMatch t).map fun l => (⟨l⟩ : String)

theorem findSome?_append {α β : Type} (f : α → Option β) (l₁ l₂ : List α) :
    (l₁ ++ l₂).findSome? f =
      match l₁.findSome? f with
      | some b => some b
      | none => l₂.findSome? f := by
  induction l₁ with
  | nil => simp [List.findSome?]
  | cons a rest ih =>
    simp only [List.cons_append, List.findSome?_cons]
    cases f a <;> simp [ih]

theorem findSome?_map {α β γ : Type} (g : α → β) (f : β → Option γ) (l : List α) :
    (l.map g).findSome? f = l.findSome? fun a => f (g a) := by
  induction l with
  | nil => rfl
  | cons a rest ih =>
    simp only [List.map_cons, List.findSome?_cons]
    cases f (g a) <;> simp [ih]

theorem findSome?_congr {α β : Type} (f g : α → Option β) (l : List α)
    (h : ∀ a ∈ l, f a = g a) : l.findSome? f = l.findSome? g := by
  induction l with
  | nil => rfl
  | cons a rest ih =>
    simp only [List.findSome?_cons, h a (List.mem_cons_self a rest)]
    cases g a <;> simp [ih fun x hx => h x (List.mem_cons_of_mem a hx)]

theorem lastMatch_eq_latestMatchSpec (t : List Char) : lastMatch t = latestMatchSpec t := by
  induction t with
  | nil => rfl
  | cons c rest ih =>
    have h1 : (((List.range rest.length).map Nat.succ).reverse).findSome?
        (fun i => matchVersionAt ((c :: rest).drop i)) = latestMatchSpec rest := by
      rw [← List.map_reverse, findSome?_map]
      exact findSome?_congr _ _ _ fun a _ => by rw [List.drop_succ_cons]
    unfold latestMatchSpec
    rw [List.length_cons, List.range_succ_eq_map, List.reverse_cons, findSome?_append, h1]
    unfold lastMatch
    rw [ih]
    rcases latestMatchSpec rest with _ | v
    · simp only [List.findSome?, List.drop_zero]
      cases matchVersionAt (c :: rest) <;> rfl
    · rfl

/-- C7 counterexample: the normalized form of `"1.2.3 4.5.6"` embeds
`1.2.3` as its first `MAJOR.MINOR.PATCH` substring, yet
`extract_version_string` returns `4.5.6` — the greedy leading `.*` of the
pattern makes the capture the *last* match, not the first one the claim
describes. -/
theorem extract_version_not_first_match :
    firstMatch (normalizeTag ("1.2.3 4.5.6".data)) = some ("1.2.3".data)
  ∧ extract_version_string "1.2.3 4.5.6" = some "4.5.6"
  ∧ ("4.5.6" : String) ≠ "1.2.3" := by
  refine ⟨?_, ?_, ?_⟩ <;> decide

/-- C7 (amended): extraction first normalizes the pre-release markers
(every `.Beta` becomes `-beta`, every `.RC` becomes `-rc`), then returns
the greedy `MAJOR.MINOR.PATCH[-prerelease]` match starting at the
*greatest* offset of the normalized string — the last such match — and
`none` when no offset matches (or the string contains a newline, which the
anchored dot-pattern can never match).  `"v1.2.3"` extracts to `1.2.3` and
`"some-beta-prerelease-1"` to `none`. -/
theorem extract_version_last_match :
    (∀ s : String,
      extract_version_string s =
        if (normalizeTag s.data).any (fun c => c = '\n') then none
        else (latestMatchSpec (normalizeTag s.data)).map fun l => (⟨l⟩ : String))
  ∧ extract_version_string "v1.2.3" = some "1.2.3"
  ∧ extract_version_string "some-beta-prerelease-1" = none := by
  refine ⟨fun s => ?_, by decide, by decide⟩
  simp only [extract_version_string]
  rw [lastMatch_eq_latestMatchSpec]

/-- Inverse of `natChars`: all-digit, non-empty decimal strings. -/
def parseNat : List Char → Option Nat
  | [] => none
  | c :: rest =>
    if (c :: rest).all Char.isDigit then
      some ((c :: rest).foldl (fun a ch => a * 10 + charVal ch) 0)
    else none

theorem charVal_digitChar : ∀ d : Nat, d < 10 → charVal (digitChar d) = d := by decide

theorem isDigit_digitChar : ∀ d : Nat, d < 10 → (digitChar d).isDigit = true := by decide

theorem natDigitsAux_all_isDigit :
    ∀ n fuel : Nat, n ≤ fuel → (natDigitsAux fuel n).all Char.isDigit = true := by
  intro n
  induction n using Nat.strong_induction_on with
  | _ n ih =>
    intro fuel hf
    rcases n with _ | m
    · cases fuel <;> simp [natDigitsAux]
    · rcases fuel with _ | f
      · omega
      · have hdiv : (m + 1) / 10 < m + 1 := Nat.div_lt_self (by omega) (by norm_num)
        have hrec := ih ((m + 1) / 10) hdiv f (by omega)
        rw [natDigitsAux, if_neg (by omega), List.all_append, hrec]
        simp [isDigit_digitChar ((m + 1) % 10) (Nat.mod_lt _ (by norm_num))]

theorem natDigitsAux_foldl :
    ∀ n fuel : Nat, n ≤ fuel → ∀ a : Nat,
      (natDigitsAux fuel n).foldl (fun x c => x * 10 + charVal c) a
        = a * 10 ^ (natDigitsAux fuel n).length + n := by
  intro n
  induction n using Nat.strong_induction_on with
  | _ n ih =>
    intro fuel hf a
    rcases n with _ | m
    · cases fuel <;> simp [natDigitsAux]
    · rcases fuel with _ | f
      · omega
      · have hdiv : (m + 1) / 10 < m + 1 := Nat.div_lt_self (by omega) (by norm_num)
        have hrec := ih ((m + 1) / 10) hdiv f (by omega) a
        rw [natDigitsAux, if_neg (by omega), List.foldl_append, List.length_append, hrec]
        simp only [List.foldl_cons, List.foldl_nil, List.length_cons, List.length_nil]
        rw [charVal_digitChar ((m + 1) % 10) (Nat.mod_lt _ (by norm_num))]
        have hdm : (m + 1) / 10 * 10 + (m + 1) % 10 = m + 1 := by omega
        calc (a * 10 ^ (natDigitsAux f ((m + 1) / 10)).length + (m + 1) / 10) * 10
              + (m + 1) % 10
            = a * 10 ^ ((natDigitsAux f ((m + 1) / 10)).length + (0 + 1))
                + ((m + 1) / 10 * 10 + (m + 1) % 10) := by ring
          _ = a * 10 ^ ((natDigitsAux f ((m + 1) / 10)).length + (0 + 1)) + (m + 1) := by
              rw [hdm]

theorem natDigitsAux_ne_nil :
    ∀ n fuel : Nat, 1 ≤ n → n ≤ fuel → natDigitsAux fuel n ≠ [] := by
  intro n fuel h1 hf
  rcases n with _ | m
  · omega
  · rcases fuel with _ | f
    · omega
    · rw [natDigitsAux, if_neg (by omega)]
      simp

theorem natChars_all_isDigit (n : Nat) : (natChars n).all Char.isDigit = true := by
  unfold natChars
  split
  · decide
  · exact natDigitsAux_all_isDigit n n le_rfl

theorem natChars_ne_nil (n : Nat) : natChars n ≠ [] := by
  unfold natChars
  split
  · simp
  · next h => exact natDigitsAux_ne_nil n n (by omega) le_rfl

theorem parseNat_natChars (n : Nat) : parseNat (natChars n) = some n := by
  rcases Nat.eq_zero_or_pos n with h0 | hpos
  · subst h0
    decide
  · have hall := natChars_all_isDigit n
    have hne := natChars_ne_nil n
    have hfold : (natChars n).foldl (fun a ch => a * 10 + charVal ch) 0 = n := by
      unfold natChars
      rw [if_neg (by omega)]
      simpa using natDigitsAux_foldl n n le_rfl 0
    cases hc : natChars n with
    | nil => exact absurd hc hne
    | cons c restl =>
      rw [hc] at hall hfold
      simp [parseNat, hall, hfold]

theorem span_append (p : Char → Bool) (l₁ l₂ : List Char) (h1 : ∀ c ∈ l₁, p c = true)
    (h2 : ∀ c, l₂.head? = some c → p c = false) :
    (l₁ ++ l₂).takeWhile p = l₁ ∧ (l₁ ++ l₂).dropWhile p = l₂ := by
  induction l₁ with
  | nil =>
    simp only [List.nil_append]
    cases l₂ with
    | nil => simp
    | cons c cs =>
      have hc := h2 c rfl
      simp [List.takeWhile_cons, List.dropWhile_cons, hc]
  | cons a l ih =>
    have ha := h1 a (List.mem_cons_self a l)
    have ih' := ih fun c hc => h1 c (List.mem_cons_of_mem _ hc)
    simp [List.takeWhile_cons, List.dropWhile_cons, ha, ih'.1, ih'.2]

/-- Inverse of `verChars`: serde's deserialization of a `semver::Version`
map key from its canonical `MAJOR.MINOR.PATCH[-prerelease]` string. -/
def parseVersion (l : List Char) : Option SemVer :=
  match parseNat (l.takeWhile Char.isDigit), l.dropWhile Char.isDigit with
  | some maj, '.' :: s2 =>
    match parseNat (s2.takeWhile Char.isDigit), s2.dropWhile Char.isDigit with
    | some minr, '.' :: s3 =>
      match parseNat (s3.takeWhile Char.isDigit), s3.dropWhile Char.isDigit with
      | some pat, [] => some ⟨maj, minr, pat, ""⟩
      | some pat, '-' :: restl => some ⟨maj, minr, pat, ⟨restl⟩⟩
      | _, _ => none
    | _, _ => none
  | _, _ => none

theorem parseVersion_verChars (v : SemVer) : parseVersion (verChars v) = some v := by
  obtain ⟨M, mi, pa, pre⟩ := v
  have hM : ∀ c ∈ natChars M, Char.isDigit c = true := fun c hc =>
    List.all_eq_true.mp (natChars_all_isDigit M) c hc
  have hmi : ∀ c ∈ natChars mi, Char.isDigit c = true := fun c hc =>
    List.all_eq_true.mp (natChars_all_isDigit mi) c hc
  have hpa : ∀ c ∈ natChars pa, Char.isDigit c = true := fun c hc =>
    List.all_eq_true.mp (natChars_all_isDigit pa) c hc
  by_cases hpre : pre = ""
  · subst hpre
    have s1 := span_append Char.isDigit (natChars M)
      ('.' :: (natChars mi ++ '.' :: natChars pa)) hM
      (by intro c hc; simp at hc; subst hc; decide)
    have s2 := span_append Char.isDigit (natChars mi) ('.' :: natChars pa) hmi
      (by intro c hc; simp at hc; subst hc; decide)
    have s3 := span_append Char.isDigit (natChars pa) [] hpa (by simp)
    rw [List.append_nil] at s3
    have hv : verChars ⟨M, mi, pa, ""⟩
        = natChars M ++ '.' :: (natChars mi ++ '.' :: natChars pa) := by
      simp [verChars, List.cons_append, List.append_assoc]
    rw [hv]
    simp only [parseVersion, s1.1, s1.2, s2.1, s2.2, s3.1, s3.2, parseNat_natChars]
  · have s1 := span_append Char.isDigit (natChars M)
      ('.' :: (natChars mi ++ '.' :: (natChars pa ++ '-' :: pre.data))) hM
      (by intro c hc; simp at hc; subst hc; decide)
    have s2 := span_append Char.isDigit (natChars mi)
      ('.' :: (natChars pa ++ '-' :: pre.data)) hmi
      (by intro c hc; simp at hc; subst hc; decide)
    have s3 := span_append Char.isDigit (natChars pa) ('-' :: pre.data) hpa
      (by intro c hc; simp at hc; subst hc; decide)
    have hv : verChars ⟨M, mi, pa, pre⟩
        = natChars M ++ '.' :: (natChars mi ++ '.' :: (natChars pa ++ '-' :: pre.data)) := by
      simp [verChars, hpre, List.cons_append, List.append_assoc]
    rw [hv]
    simp only [parseVersion, s1.1, s1.2, s2.1, s2.2, s3.1, s3.2, parseNat_natChars]

/-- The JSON trees `serde_json::to_writer_pretty` writes for the manifest:
string leaves and objects (whitespace and pretty-printing carry no
information and are not modelled). -/
inductive Json where
  | str (s : String)
  | obj (fields : List (String × Json))

/-- serde's `rename_all = "lowercase"` spelling of an `Engine` key. -/
def engineName : Engine → String
  | .elasticsearch => "elasticsearch"
  | .opensearch => "opensearch"
  | .quickwit => "quickwit"

/-- Deserialization of an `Engine` key. -/
def parseEngineName (s : String) : Option Engine :=
  if s = "elasticsearch" then some .elasticsearch
  else if s = "opensearch" then some .opensearch
  else if s = "quickwit" then some .quickwit
  else none

/-- serde's `rename_all = "lowercase"` spelling of an `Arch` key. -/
def archName : Arch → String
  | .x86_64 => "x86_64"
  | .aarch64 => "aarch64"

/-- Deserialization of an `Arch` key. -/
def parseArchName (s : String) : Option Arch :=
  if s = "x86_64" then some .x86_64
  else if s = "aarch64" then some .aarch64
  else none

/-- serde's `rename_all = "lowercase"` spelling of an `OperatingSystem`
key. -/
def osName : OperatingSystem → String
  | .linux => "linux"
  | .darwin => "darwin"

/-- Deserialization of an `OperatingSystem` key. -/
def parseOsName (s : String) : Option OperatingSystem :=
  if s = "linux" then some .linux
  else if s = "darwin" then some .darwin
  else none

/-- Serialization of `Details { sha256, url }` (field order as declared). -/
def serializeDetails (d : Details) : Json :=
  .obj [("sha256", .str d.sha256), ("url", .str d.url)]

/-- Deserialization of `Details`. -/
def parseDetails : Json → Option Details
  | .obj [("sha256", .str h), ("url", .str u)] => some ⟨h, u⟩
  | _ => none

/-- Deserialize the entries of one JSON object level of the nested
manifest: every key and every value must parse. -/
def parseEntries {κ α : Type} (pk : String → Option κ) (pv : Json → Option α) :
    List (String × Json) → Option (List (κ × α))
  | [] => some []
  | (ks, j) :: rest =>
    match pk ks, pv j, parseEntries pk pv rest with
    | some k, some v, some r => some ((k, v) :: r)
    | _, _, _ => none

/-- Serialization of the innermost map `OperatingSystem → Details`. -/
def serializeOsMap (m : OsMap) : Json :=
  .obj (m.map fun e => (osName e.1, serializeDetails e.2))

/-- Deserialization of the innermost map. -/
def parseOsMap : Json → Option OsMap
  | .obj l => parseEntries parseOsName parseDetails l
  | _ => none

/-- Serialization of the map `Arch → OsMap`. -/
def serializeArchMap (m : ArchMap) : Json :=
  .obj (m.map fun e => (archName e.1, serializeOsMap e.2))

/-- Deserialization of the map `Arch → OsMap`. -/
def parseArchMap : Json → Option ArchMap
  | .obj l => parseEntries parseArchName parseOsMap l
  | _ => none

/-- Serialization of the map `Version → ArchMap` (a `semver::Version` map
key serializes through its `Display` form). -/
def serializeVerMap (m : VerMap) : Json :=
  .obj (m.map fun e => (versionToString e.1, serializeArchMap e.2))

/-- Deserialization of the map `Version → ArchMap`. -/
def parseVerMap : Json → Option VerMap
  | .obj l => parseEntries (fun s => parseVersion s.data) parseArchMap l
  | _ => none

/-- `serde_json::to_writer_pretty(writer, &manifest)` — the JSON value
`flush_manifest` writes. -/
def serializeManifest (m : Manifest) : Json :=
  .obj (m.map fun e => (engineName e.1, serializeVerMap e.2))

/-- `serde_json::from_reader` on a manifest file. -/
def parseManifest : Json → Option Manifest
  | .obj l => parseEntries parseEngineName parseVerMap l
  | _ => none

theorem parseEntries_roundtrip {κ α : Type} (pk : String → Option κ) (pv : Json → Option α)
    (nk : κ → String) (sv : α → Json) (hk : ∀ k, pk (nk k) = some k)
    (hv : ∀ v, pv (sv v) = some v) (l : List (κ × α)) :
    parseEntries pk pv (l.map fun e => (nk e.1, sv e.2)) = some l := by
  induction l with
  | nil => rfl
  | cons e rest ih =>
    obtain ⟨k, v⟩ := e
    simp [parseEntries, hk, hv, ih]

theorem parseOsName_roundtrip (o : OperatingSystem) : parseOsName (osName o) = some o := by
  cases o <;> rfl

theorem parseArchName_roundtrip (a : Arch) : parseArchName (archName a) = some a := by
  cases a <;> rfl

theorem parseEngineName_roundtrip (e : Engine) : parseEngineName (engineName e) = some e := by
  cases e <;> rfl

theorem parseDetails_roundtrip (d : Details) : parseDetails (serializeDetails d) = some d := rfl

theorem parseOsMap_roundtrip (m : OsMap) : parseOsMap (serializeOsMap m) = some m :=
  parseEntries_roundtrip _ _ _ _ parseOsName_roundtrip parseDetails_roundtrip m

theorem parseArchMap_roundtrip (m : ArchMap) : parseArchMap (serializeArchMap m) = some m :=
  parseEntries_roundtrip _ _ _ _ parseArchName_roundtrip parseOsMap_roundtrip m

theorem parseVerMap_roundtrip (m : VerMap) : parseVerMap (serializeVerMap m) = some m :=
  parseEntries_roundtrip _ _ _ _ (fun v => parseVersion_verChars v) parseArchMap_roundtrip m

theorem parseManifest_roundtrip (m : Manifest) : parseManifest (serializeManifest m) = some m :=
  parseEntries_roundtrip _ _ _ _ parseEngineName_roundtrip parseVerMap_roundtrip m

/-- `update_manifest`'s receive loop over the messages it will receive, in
order: `while let Some(Some(tuple)) = manifest_rx.recv().await { …;
flush_manifest(&manifest); }` — a `None` (or the end of the stream) ends
the loop.  Returns the final manifest and the sequence of file states
`flush_manifest` wrote, each a full serialization of the manifest at that
point. -/
def updateManifestRun (m : Manifest) : List (Option ManifestTuple) → Manifest × List Json
  | [] => (m, [])
  | none :: _ => (m, [])
  | some t :: rest =>
    let m1 := applyUpdate m t
    let tail := updateManifestRun m1 rest
    (tail.1, serializeManifest m1 :: tail.2)

/-- The tuples the receive loop actually processes: the longest all-`Some`
prefix of the message stream. -/
def procOf (msgs : List (Option ManifestTuple)) : List ManifestTuple :=
  (msgs.takeWhile fun o => o.isSome).filterMap id

theorem procOf_none (rest : List (Option ManifestTuple)) : procOf (none :: rest) = [] := rfl

theorem procOf_some (t : ManifestTuple) (rest : List (Option ManifestTuple)) :
    procOf (some t :: rest) = t :: procOf rest := rfl

theorem updateManifestRun_fst (msgs : List (Option ManifestTuple)) :
    ∀ m0 : Manifest, (updateManifestRun m0 msgs).1 = applyAll m0 (procOf msgs) := by
  induction msgs with
  | nil => intro m0; rfl
  | cons o rest ih =>
    intro m0
    cases o with
    | none => rfl
    | some t =>
      simp only [updateManifestRun, procOf_some]
      rw [ih (applyUpdate m0 t)]
      rfl

theorem updateManifestRun_writes (msgs : List (Option ManifestTuple)) :
    ∀ m0 : Manifest, (updateManifestRun m0 msgs).2 =
      (List.range (procOf msgs).length).map
        fun i => serializeManifest (applyAll m0 ((procOf msgs).take (i + 1))) := by
  induction msgs with
  | nil => intro m0; rfl
  | cons o rest ih =>
    intro m0
    cases o with
    | none => rfl
    | some t =>
      simp only [updateManifestRun, procOf_some, List.length_cons]
      rw [ih (applyUpdate m0 t), List.range_succ_eq_map, List.map_cons, List.map_map]
      refine congrArg₂ _ (by simp [applyAll]) (List.map_congr_left fun i _ => ?_)
      simp only [Function.comp_apply, List.take_succ_cons]
      rfl

/-- C5: `flush_manifest` is called synchronously after every applied
update, writing a full serialization of the manifest as it stands after
that apply and before the next update is processed (the write sequence is
exactly one full-manifest serialization per processed tuple, in order);
the loop's final manifest is the fold of all processed applies; and every
serialized manifest parses back to exactly the manifest it serialized, so
after any completed write the stored file is a valid, fully-parseable
serialization containing exactly the entries applied so far. -/
theorem flush_after_every_apply :
    (∀ (m0 : Manifest) (msgs : List (Option ManifestTuple)),
      (updateManifestRun m0 msgs).2 =
        (List.range (procOf msgs).length).map
          fun i => serializeManifest (applyAll m0 ((procOf msgs).take (i + 1))))
  ∧ (∀ (m0 : Manifest) (msgs : List (Option ManifestTuple)),
      (updateManifestRun m0 msgs).1 = applyAll m0 (procOf msgs))
  ∧ (∀ m : Manifest, parseManifest (serializeManifest m) = some m) :=
  ⟨fun m0 msgs => updateManifestRun_writes msgs m0,
   fun m0 msgs => updateManifestRun_fst msgs m0,
   parseManifest_roundtrip⟩

/-- The join loop of `versions_from_github`:
`while let Some(Ok(Ok((engine, versions)))) = set.join_next().await`, with
completion modelled in spawn order (`Engine::iter()`).  The pattern fails
on the first engine whose fetch returned `Err`, silently ending the loop
with the results gathered so far; later engines' results are dropped. -/
def githubJoin (results : Engine → Except Unit (List SemVer)) :
    List Engine → List (Engine × List SemVer) → List (Engine × List SemVer)
  | [], acc => acc
  | e :: rest, acc =>
    match results e with
    | .ok vs => githubJoin results rest (acc ++ [(e, vs)])
    | .error _ => acc

/-- `versions_from_github`, over the per-engine listing outcomes: whatever
the outcomes, the gathered (possibly partial, possibly empty) map is
written to the versions cache file and returned as `Ok` — a listing
failure never propagates out of the join loop. -/
def versions_from_github (results : Engine → Except Unit (List SemVer)) :
    Except Unit (List (Engine × List SemVer)) :=
  Except.ok (githubJoin results Engine.iter [])

/-- `initialize_manifest`: a present manifest file must deserialize (a
`ReadManifest` error otherwise, propagated by `?`); a missing file yields
the empty manifest. -/
def initialize_manifest (file : Option Json) : Except Unit Manifest :=
  match file with
  | some j =>
    match parseManifest j with
    | some m => Except.ok m
    | none => Except.error ()
  | none => Except.ok []

/-- The prefix of `main` the fatal-error claim is about: `?` on
`initialize_manifest` (a deserialization failure becomes a non-zero exit),
then gathering the engine versions. -/
def main_model (manifestFile : Option Json)
    (results : Engine → Except Unit (List SemVer)) :
    Except Unit (Manifest × List (Engine × List SemVer)) :=
  match initialize_manifest manifestFile with
  | .error e => .error e
  | .ok m =>
    match versions_from_github results with
    | .error e => .error e
    | .ok evs => .ok (m, evs)

/-- Listing outcomes on which the first engine's (Elasticsearch's) GitHub
listing fails and the other two succeed. -/
def ghFail : Engine → Except Unit (List SemVer)
  | .elasticsearch => .error ()
  | _ => .ok [v100]

/-- C8: evaluating the discovery path at a failing input.  The claim (and
the spec) say a version-source listing failure aborts the whole run with a
non-zero exit; in the code the `while let Some(Ok(Ok(..)))` join loop of
`versions_from_github` simply exits on the first `Err` — here the
Elasticsearch failure also discards the two successful engines — writes
the partial (here empty) versions file and returns `Ok`, so `main`
continues and exits zero.  The claim's other half does hold: a manifest
file that fails to deserialize is a fatal error, and only a missing
manifest file yields the empty starting manifest. -/
theorem discovery_failure_not_fatal :
    versions_from_github ghFail = Except.ok []
  ∧ main_model none ghFail = Except.ok ([], [])
  ∧ initialize_manifest (some (Json.str "corrupt")) = Except.error ()
  ∧ initialize_manifest none = Except.ok [] :=
  ⟨rfl, rfl, rfl, rfl⟩

/-- A one-entry manifest used as a concrete witness input. -/
def m1ex : Manifest :=
  applyUpdate [] (Engine.quickwit, v100, Arch.x86_64, OperatingSystem.linux, "u", "h")

/-- Concrete instance of `manifest_insert_if_absent`: re-applying the
already-present key with different details leaves `m1ex` unchanged. -/
theorem manifest_insert_if_absent_witness :
    applyUpdate m1ex (Engine.quickwit, v100, Arch.x86_64, OperatingSystem.linux, "u2", "h2")
      = m1ex :=
  manifest_insert_if_absent.1 m1ex Engine.quickwit v100 Arch.x86_64 OperatingSystem.linux
    "u2" "h2" ⟨"h", "u"⟩ (by decide)

/-- Concrete instance of `url_derivation_not_injective`: the shared URLs at
`(opensearch, 1.0.0, x86_64)` and `(elasticsearch, 7.17.9, linux)`. -/
theorem url_derivation_not_injective_witness :
    get_url Engine.opensearch v100 Arch.x86_64 OperatingSystem.linux
      = get_url Engine.opensearch v100 Arch.x86_64 OperatingSystem.darwin
  ∧ get_url Engine.elasticsearch v7179 Arch.x86_64 OperatingSystem.linux
      = get_url Engine.elasticsearch v7179 Arch.aarch64 OperatingSystem.linux :=
  ⟨url_derivation_not_injective.1 v100 Arch.x86_64,
   url_derivation_not_injective.2 v7179 OperatingSystem.linux rfl⟩

end SearchPkgs
